import Mathlib

/-!
Verification of the resilience layer of an advanced API client
(`advanced-api-client.js`): exponential-backoff retry, rate limiting,
windowed batch processing, header assembly of `request`, and the
composition of the rate limiter with the retry loop inside `request`.

Modelling conventions:
- time values (`Date.now()` readings, wait durations) are rationals, in
  milliseconds; the backoff delays computed from the integer fields
  `retryDelay` and `maxRetries` are naturals;
- an asynchronous operation handed to the retry loop is a function from
  the attempt number (1-based, as in the source) to its outcome on that
  attempt;
- side effects (invoking the operation, sleeping, completing the rate
  limiter) are recorded in an explicit event trace.
-/

namespace APIClient

variable {α β ε : Type}

/-- Model of a JavaScript error value as it flows through the client:
`message` models `error.message`, `status` models the ad hoc optional
`error.status` field (absent on a plain `new Error`). -/
structure JsError where
  message : String
  status : Option Nat
deriving DecidableEq

/-- Translation of the guard `error.status >= 400 && error.status < 500`
in `retryWithBackoff`; in JavaScript a comparison against an absent
(`undefined`) status is false, hence the `none` case yields `false`. -/
def isClientError (e : JsError) : Bool :=
  match e.status with
  | some s => decide (400 ≤ s) && decide (s < 500)
  | none => false

/-- Observable events of one client call: operation invocations
(transport attempts, numbered from 1), backoff sleeps (ms), and the
completion of a rate-limiter acquire recording the time waited (ms). -/
inductive REv where
  | invoke (attempt : Nat)
  | sleep (ms : Nat)
  | acquire (waited : ℚ)
deriving DecidableEq

def REv.isInvoke : REv → Bool
  | .invoke _ => true
  | _ => false

def REv.isAcquire : REv → Bool
  | .acquire _ => true
  | _ => false

def REv.sleepMs : REv → Option Nat
  | .sleep d => some d
  | _ => none

/-- Number of operation invocations recorded in a trace. -/
def invocations (t : List REv) : Nat := t.countP REv.isInvoke

/-- Backoff delays recorded in a trace, in order. -/
def delays (t : List REv) : List Nat := t.filterMap REv.sleepMs

/-- Outcome of a retry run: the settled value or error of the promise,
together with the trace of invocations and sleeps. -/
structure RetryResult (α : Type) where
  result : Except JsError α
  trace : List REv

/-- Shallow embedding of `retryWithBackoff(fn, attempt = 1)`.
`maxRetries` and `retryDelay` are the client fields of those names;
`op a` is the outcome of the `a`-th invocation of `fn`.  Mirrors the
source: on failure, if `attempt >= this.maxRetries` it throws
`new Error("Failed after " + maxRetries + " attempts: " + error.message)`;
otherwise a 4xx status is rethrown as is; otherwise it sleeps
`retryDelay * 2 ^ (attempt - 1)` ms and recurses with `attempt + 1`. -/
def retryWithBackoff (maxRetries retryDelay : Nat)
    (op : Nat → Except JsError α) (attempt : Nat) : RetryResult α :=
  match op attempt with
  | .ok v => ⟨.ok v, [.invoke attempt]⟩
  | .error e =>
    if h1 : maxRetries ≤ attempt then
      ⟨.error ⟨"Failed after " ++ toString maxRetries ++ " attempts: " ++ e.message, none⟩,
        [.invoke attempt]⟩
    else if h2 : isClientError e then
      ⟨.error e, [.invoke attempt]⟩
    else
      let rest := retryWithBackoff maxRetries retryDelay op (attempt + 1)
      ⟨rest.result, .invoke attempt :: .sleep (retryDelay * 2 ^ (attempt - 1)) :: rest.trace⟩
termination_by maxRetries - attempt
decreasing_by omega

theorem retryWithBackoff_ok (m b : Nat) (op : Nat → Except JsError α) (a : Nat) (v : α)
    (h : op a = .ok v) : retryWithBackoff m b op a = ⟨.ok v, [.invoke a]⟩ := by
  unfold retryWithBackoff
  rw [h]

theorem retryWithBackoff_exhaust (m b : Nat) (op : Nat → Except JsError α) (a : Nat)
    (e : JsError) (h : op a = .error e) (h1 : m ≤ a) :
    retryWithBackoff m b op a =
      ⟨.error ⟨"Failed after " ++ toString m ++ " attempts: " ++ e.message, none⟩,
        [.invoke a]⟩ := by
  unfold retryWithBackoff
  rw [h]
  simp [h1]

theorem retryWithBackoff_client (m b : Nat) (op : Nat → Except JsError α) (a : Nat)
    (e : JsError) (h : op a = .error e) (h1 : ¬ m ≤ a) (h2 : isClientError e = true) :
    retryWithBackoff m b op a = ⟨.error e, [.invoke a]⟩ := by
  unfold retryWithBackoff
  rw [h]
  simp [h1, h2]

theorem retryWithBackoff_retry (m b : Nat) (op : Nat → Except JsError α) (a : Nat)
    (e : JsError) (h : op a = .error e) (h1 : ¬ m ≤ a) (h2 : isClientError e = false) :
    retryWithBackoff m b op a =
      ⟨(retryWithBackoff m b op (a + 1)).result,
        .invoke a :: .sleep (b * 2 ^ (a - 1)) :: (retryWithBackoff m b op (a + 1)).trace⟩ := by
  conv_lhs => unfold retryWithBackoff
  rw [h]
  simp [h1, h2]

theorem retry_transient_go (m b : Nat) (op : Nat → Except JsError α) (e : Nat → JsError)
    (hop : ∀ a, op a = .error (e a)) (htr : ∀ a, isClientError (e a) = false) :
    ∀ k a, 1 ≤ a → a + k = m →
      (retryWithBackoff m b op a).result =
          .error ⟨"Failed after " ++ toString m ++ " attempts: " ++ (e m).message, none⟩ ∧
      invocations (retryWithBackoff m b op a).trace = k + 1 ∧
      delays (retryWithBackoff m b op a).trace =
          (List.range k).map (fun j => b * 2 ^ (a - 1 + j)) ∧
      (retryWithBackoff m b op a).trace.getLast? = some (.invoke m) := by
  intro k
  induction k with
  | zero =>
    intro a h1 h2
    have hma : m ≤ a := by omega
    have ham : a = m := by omega
    rw [retryWithBackoff_exhaust m b op a (e a) (hop a) hma, ham]
    simp [invocations, delays, REv.isInvoke, REv.sleepMs]
  | succ k ih =>
    intro a h1 h2
    have hma : ¬ m ≤ a := by omega
    rw [retryWithBackoff_retry m b op a (e a) (hop a) hma (htr a)]
    obtain ⟨ihr, ihi, ihd, ihl⟩ := ih (a + 1) (by omega) (by omega)
    refine ⟨ihr, ?_, ?_, ?_⟩
    · simp only [invocations] at ihi ⊢
      simp [List.countP_cons, REv.isInvoke]
      omega
    · have hd : delays (REv.invoke a :: REv.sleep (b * 2 ^ (a - 1)) ::
          (retryWithBackoff m b op (a + 1)).trace)
          = b * 2 ^ (a - 1) :: delays (retryWithBackoff m b op (a + 1)).trace := by
        simp [delays, REv.sleepMs]
      rw [hd, ihd]
      have hsh : ∀ j : Nat, a + 1 - 1 + j = a - 1 + (j + 1) := by omega
      simp only [hsh]
      rw [List.range_succ_eq_map, List.map_cons, List.map_map]
      simp [Function.comp, Nat.succ_eq_add_one]
    · cases htrace : (retryWithBackoff m b op (a + 1)).trace with
      | nil => rw [htrace] at ihl; simp at ihl
      | cons r rs =>
        rw [htrace] at ihl
        rw [List.getLast?_cons_cons, List.getLast?_cons_cons]
        exact ihl

/-- C1: for an operation failing with a transient (non-4xx) error on every
attempt, with `maxRetries = m ≥ 1` and `retryDelay = b > 0`,
`retryWithBackoff` invokes the operation exactly `m` times, sleeps
`b * 2 ^ (a - 1)` after failed attempt `a` for `a = 1 .. m - 1`, applies no
delay after the final failed attempt (the trace ends with the final
invocation), and fails with message
`"Failed after <m> attempts: <last cause's message>"`. -/
theorem retry_exhausts_all_transient (m b : Nat) (hm : 1 ≤ m) (hb : 0 < b)
    (op : Nat → Except JsError α) (e : Nat → JsError)
    (hop : ∀ a, op a = .error (e a)) (htr : ∀ a, isClientError (e a) = false) :
    invocations (retryWithBackoff m b op 1).trace = m ∧
    delays (retryWithBackoff m b op 1).trace = (List.range (m - 1)).map (fun k => b * 2 ^ k) ∧
    (retryWithBackoff m b op 1).trace.getLast? = some (.invoke m) ∧
    (retryWithBackoff m b op 1).result =
      .error ⟨"Failed after " ++ toString m ++ " attempts: " ++ (e m).message, none⟩ := by
  obtain ⟨hr, hi, hd, hl⟩ := retry_transient_go m b op e hop htr (m - 1) 1 (by omega) (by omega)
  refine ⟨by rw [hi]; omega, by simpa using hd, hl, hr⟩

theorem retry_exhausts_all_transient_witness :
    1 ≤ 2 ∧ 0 < 100 ∧
    (invocations (retryWithBackoff (α := Unit) 2 100 (fun _ => .error ⟨"boom", none⟩) 1).trace = 2 ∧
     delays (retryWithBackoff (α := Unit) 2 100 (fun _ => .error ⟨"boom", none⟩) 1).trace
        = (List.range (2 - 1)).map (fun k => 100 * 2 ^ k) ∧
     (retryWithBackoff (α := Unit) 2 100 (fun _ => .error ⟨"boom", none⟩) 1).trace.getLast?
        = some (.invoke 2) ∧
     (retryWithBackoff (α := Unit) 2 100 (fun _ => .error ⟨"boom", none⟩) 1).result =
       .error ⟨"Failed after " ++ toString 2 ++ " attempts: " ++ "boom", none⟩) :=
  ⟨by decide, by decide,
    retry_exhausts_all_transient 2 100 (by decide) (by decide) _ (fun _ => ⟨"boom", none⟩)
      (fun _ => rfl) (fun _ => rfl)⟩

/-- C2: for an operation whose first attempt fails with an error carrying a
status code in `[400, 500)`, `retryWithBackoff` invokes the operation
exactly once, sleeps no backoff delay, and fails, regardless of the
remaining retry budget. -/
theorem retry_client_fault_once (m b : Nat) (hm : 1 ≤ m) (op : Nat → Except JsError α)
    (e : JsError) (s : Nat) (hop : op 1 = .error e) (hs : e.status = some s)
    (h4 : 400 ≤ s) (h5 : s < 500) :
    invocations (retryWithBackoff m b op 1).trace = 1 ∧
    delays (retryWithBackoff m b op 1).trace = [] ∧
    ∃ er, (retryWithBackoff m b op 1).result = .error er := by
  have hce : isClientError e = true := by simp [isClientError, hs, h4, h5]
  by_cases h1 : m ≤ 1
  · rw [retryWithBackoff_exhaust m b op 1 e hop h1]
    exact ⟨by simp [invocations, REv.isInvoke], by simp [delays, REv.sleepMs], _, rfl⟩
  · rw [retryWithBackoff_client m b op 1 e hop h1 hce]
    exact ⟨by simp [invocations, REv.isInvoke], by simp [delays, REv.sleepMs], _, rfl⟩

theorem retry_client_fault_once_witness :
    1 ≤ 3 ∧ (400 ≤ 404 ∧ 404 < 500) ∧
    (invocations (retryWithBackoff (α := Unit) 3 1000
        (fun _ => .error ⟨"HTTP 404: Not Found", some 404⟩) 1).trace = 1 ∧
     delays (retryWithBackoff (α := Unit) 3 1000
        (fun _ => .error ⟨"HTTP 404: Not Found", some 404⟩) 1).trace = [] ∧
     ∃ er, (retryWithBackoff (α := Unit) 3 1000
        (fun _ => .error ⟨"HTTP 404: Not Found", some 404⟩) 1).result = .error er) :=
  ⟨by decide, by decide,
    retry_client_fault_once 3 1000 (by decide) _ ⟨"HTTP 404: Not Found", some 404⟩ 404
      rfl rfl (by decide) (by decide)⟩

/-- Shallow embedding of `enforceRateLimit()`.  `rateLimit` is the client
field of that name (`null` when unset; the constructor maps a falsy
option to `null`), `lastRequestTime` the stored timestamp and `now` the
`Date.now()` reading at entry, all in ms.  Returns the time slept and
the new `lastRequestTime`; the clock after an exact sleep of `w` ms
reads `now + w`, which models the `Date.now()` taken after the wait. -/
def enforceRateLimit (rateLimit : Option ℚ) (lastRequestTime now : ℚ) : ℚ × ℚ :=
  match rateLimit with
  | none => (0, lastRequestTime)
  | some r =>
    let minInterval := 1000 / r
    let timeSinceLastRequest := now - lastRequestTime
    let wait := if timeSinceLastRequest < minInterval then minInterval - timeSinceLastRequest else 0
    (wait, now + wait)

/-- C5: with rate `r > 0`, a caller whose elapsed time since
`lastRequestTime` is below `1000 / r` is suspended exactly
`1000 / r - elapsed` ms and any other caller proceeds immediately;
consequently the completion instant of the acquire lies at least
`1000 / r` ms after the stored previous-request instant. -/
theorem rate_limit_min_spacing (r last now : ℚ) (hr : 0 < r) (hln : last ≤ now) :
    (now - last < 1000 / r →
        (enforceRateLimit (some r) last now).1 = 1000 / r - (now - last)) ∧
    (1000 / r ≤ now - last → (enforceRateLimit (some r) last now).1 = 0) ∧
    1000 / r ≤ now + (enforceRateLimit (some r) last now).1 - last := by
  simp only [enforceRateLimit]
  split_ifs with h
  · exact ⟨fun _ => rfl, fun hc => absurd h (not_lt.mpr hc), by linarith⟩
  · exact ⟨fun hc => absurd hc h, fun _ => rfl, by push_neg at h; linarith⟩

theorem rate_limit_min_spacing_witness :
    (0 : ℚ) < 2 ∧ (0 : ℚ) ≤ 100 ∧
    (((100 : ℚ) - 0 < 1000 / 2 →
        (enforceRateLimit (some 2) 0 100).1 = 1000 / 2 - (100 - 0)) ∧
     ((1000 : ℚ) / 2 ≤ 100 - 0 → (enforceRateLimit (some 2) 0 100).1 = 0) ∧
     (1000 : ℚ) / 2 ≤ 100 + (enforceRateLimit (some 2) 0 100).1 - 0) :=
  ⟨by norm_num, by norm_num, rate_limit_min_spacing 2 0 100 (by norm_num) (by norm_num)⟩

/-- C8: with a rate limit configured, `enforceRateLimit` sets
`lastRequestTime` to the clock reading at the end of the call (`now`
plus the time slept) unconditionally — also when no wait was needed; in
particular a call whose elapsed time already reaches `minInterval`
resets the baseline to `now` with zero wait instead of keeping a
token-bucket style allowance relative to the old baseline. -/
theorem rate_limit_unconditional_update (r last now : ℚ) (hr : 0 < r) :
    (enforceRateLimit (some r) last now).2 =
      now + (enforceRateLimit (some r) last now).1 ∧
    (1000 / r ≤ now - last → enforceRateLimit (some r) last now = (0, now)) := by
  constructor
  · simp [enforceRateLimit]
  · intro hc
    have h : ¬ (now - last < 1000 / r) := not_lt.mpr hc
    simp [enforceRateLimit, h]

theorem rate_limit_unconditional_update_witness :
    (0 : ℚ) < 2 ∧
    ((enforceRateLimit (some 2) 0 3000).2 =
        3000 + (enforceRateLimit (some 2) 0 3000).1 ∧
     ((1000 : ℚ) / 2 ≤ 3000 - 0 → enforceRateLimit (some 2) 0 3000 = (0, 3000))) :=
  ⟨by norm_num, rate_limit_unconditional_update 2 0 3000 (by norm_num)⟩

/-- Outcome of one `request` call: the settled result, the event trace,
and the final value of the mutable field `lastRequestTime`. -/
structure RequestOutcome (α : Type) where
  result : Except JsError α
  trace : List REv
  lastRequestTime : ℚ

/-- Shallow embedding of the control flow of `request(endpoint, options)`:
it first awaits `enforceRateLimit()`, then hands the single-attempt
closure to `retryWithBackoff(fn)`; the retried closure never touches the
rate limiter and `lastRequestTime` is not written again. -/
def request (rateLimit : Option ℚ) (lastRequestTime now : ℚ) (maxRetries retryDelay : Nat)
    (op : Nat → Except JsError α) : RequestOutcome α :=
  let rl := enforceRateLimit rateLimit lastRequestTime now
  let r := retryWithBackoff maxRetries retryDelay op 1
  ⟨r.result, .acquire rl.1 :: r.trace, rl.2⟩

theorem retry_trace_no_acquire_aux (m b : Nat) (op : Nat → Except JsError α) :
    ∀ k a, m - a ≤ k → List.countP REv.isAcquire (retryWithBackoff m b op a).trace = 0 := by
  intro k
  induction k with
  | zero =>
    intro a hk
    have hma : m ≤ a := by omega
    cases hop : op a with
    | ok v => rw [retryWithBackoff_ok m b op a v hop]; simp [REv.isAcquire]
    | error e => rw [retryWithBackoff_exhaust m b op a e hop hma]; simp [REv.isAcquire]
  | succ k ih =>
    intro a hk
    cases hop : op a with
    | ok v => rw [retryWithBackoff_ok m b op a v hop]; simp [REv.isAcquire]
    | error e =>
      by_cases hma : m ≤ a
      · rw [retryWithBackoff_exhaust m b op a e hop hma]; simp [REv.isAcquire]
      · by_cases hce : isClientError e = true
        · rw [retryWithBackoff_client m b op a e hop hma hce]; simp [REv.isAcquire]
        · rw [retryWithBackoff_retry m b op a e hop hma (by simpa using hce)]
          simp only [List.countP_cons, REv.isAcquire]
          simpa using ih (a + 1) (by omega)

theorem retry_trace_no_acquire (m b : Nat) (op : Nat → Except JsError α) (a : Nat) :
    List.countP REv.isAcquire (retryWithBackoff m b op a).trace = 0 :=
  retry_trace_no_acquire_aux m b op (m - a) a le_rfl

/-- C10: every `request` awaits the rate limiter exactly once and before
the first transport attempt — the acquire event heads the trace and the
retry trace contains no acquire — and the final `lastRequestTime` is the
value written by that single acquire, independent of what the retried
attempts do. -/
theorem request_acquires_once (rateLimit : Option ℚ) (last now : ℚ) (m b : Nat)
    (op op2 : Nat → Except JsError α) :
    (request rateLimit last now m b op).trace =
      .acquire (enforceRateLimit rateLimit last now).1 :: (retryWithBackoff m b op 1).trace ∧
    List.countP REv.isAcquire (request rateLimit last now m b op).trace = 1 ∧
    List.countP REv.isAcquire (retryWithBackoff m b op 1).trace = 0 ∧
    (request rateLimit last now m b op).lastRequestTime =
      (enforceRateLimit rateLimit last now).2 ∧
    (request rateLimit last now m b op).lastRequestTime =
      (request rateLimit last now m b op2).lastRequestTime := by
  refine ⟨rfl, ?_, retry_trace_no_acquire m b op 1, rfl, rfl⟩
  simp only [request, List.countP_cons, REv.isAcquire]
  simpa using retry_trace_no_acquire m b op 1

/-- Model of a thrown JavaScript error as observed in the `catch` of the
request closure: `name` models `error.name` (`"AbortError"` for the
abort raised when the timeout fires), plus `message` and the optional
`status` field. -/
structure FetchError where
  name : String
  message : String
  status : Option Nat

/-- Model of a settled `fetch` response: `ok` is `response.ok` (status in
`[200, 300)`), with the status line and the parsed JSON body. -/
structure FetchResponse (β : Type) where
  ok : Bool
  status : Nat
  statusText : String
  body : β

/-- Outcome of one transport attempt: a settled response, or a thrown
error (network failure, or the abort triggered by the timeout). -/
inductive FetchOutcome (β : Type) where
  | response (r : FetchResponse β)
  | thrown (e : FetchError)

/-- Shallow embedding of the closure `request` hands to
`retryWithBackoff`, as a function of the transport outcome of the
attempt: a non-`ok` response becomes `Error("HTTP <status>: <statusText>")`
carrying `error.status = response.status`; a thrown `AbortError` becomes
`Error("Request timeout after <timeout>ms")` carrying no status; any
other thrown error is rethrown unchanged. -/
def attemptOnce (timeout : Nat) (f : FetchOutcome β) : Except JsError β :=
  match f with
  | .response r =>
    if r.ok then .ok r.body
    else .error ⟨"HTTP " ++ toString r.status ++ ": " ++ r.statusText, some r.status⟩
  | .thrown e =>
    if e.name = "AbortError" then
      .error ⟨"Request timeout after " ++ toString timeout ++ "ms", none⟩
    else
      .error ⟨e.message, e.status⟩

theorem one_le_invocations (m b : Nat) (op : Nat → Except JsError α) (a : Nat) :
    1 ≤ invocations (retryWithBackoff m b op a).trace := by
  cases hop : op a with
  | ok v => rw [retryWithBackoff_ok m b op a v hop]; simp [invocations, REv.isInvoke]
  | error e =>
    by_cases hma : m ≤ a
    · rw [retryWithBackoff_exhaust m b op a e hop hma]; simp [invocations, REv.isInvoke]
    · by_cases hce : isClientError e = true
      · rw [retryWithBackoff_client m b op a e hop hma hce]; simp [invocations, REv.isInvoke]
      · rw [retryWithBackoff_retry m b op a e hop hma (by simpa using hce)]
        simp [invocations, List.countP_cons, REv.isInvoke]

/-- C6: an aborted transport attempt (`error.name = "AbortError"`, raised
when the enforced timeout fires) is converted by the request closure
into an error carrying no status code; `isClientError` therefore
classifies it as transient, so when attempts remain `retryWithBackoff`
schedules the normal backoff sleep and a further attempt instead of
failing permanently. -/
theorem timeout_classified_transient (t m b : Nat) (msg : String) (st : Option Nat)
    (op : Nat → Except JsError β) (hm : 1 < m)
    (hop : op 1 = attemptOnce (β := β) t (.thrown ⟨"AbortError", msg, st⟩)) :
    attemptOnce (β := β) t (.thrown ⟨"AbortError", msg, st⟩) =
      .error ⟨"Request timeout after " ++ toString t ++ "ms", none⟩ ∧
    isClientError ⟨"Request timeout after " ++ toString t ++ "ms", none⟩ = false ∧
    (retryWithBackoff m b op 1).trace.take 2 = [.invoke 1, .sleep b] ∧
    2 ≤ invocations (retryWithBackoff m b op 1).trace := by
  have hterr : attemptOnce (β := β) t (.thrown ⟨"AbortError", msg, st⟩) =
      .error ⟨"Request timeout after " ++ toString t ++ "ms", none⟩ := by
    simp [attemptOnce]
  rw [hterr] at hop
  have hma : ¬ m ≤ 1 := by omega
  rw [retryWithBackoff_retry m b op 1 _ hop hma rfl]
  refine ⟨hterr, rfl, by simp, ?_⟩
  have h2 := one_le_invocations m b op 2
  simp only [invocations] at h2 ⊢
  norm_num [List.countP_cons, REv.isInvoke]
  omega

theorem timeout_classified_transient_witness :
    1 < 2 ∧
    (attemptOnce (β := Unit) 30000 (.thrown ⟨"AbortError", "aborted", none⟩) =
        .error ⟨"Request timeout after " ++ toString 30000 ++ "ms", none⟩ ∧
     isClientError ⟨"Request timeout after " ++ toString 30000 ++ "ms", none⟩ = false ∧
     (retryWithBackoff 2 1000
        (fun _ => attemptOnce (β := Unit) 30000 (.thrown ⟨"AbortError", "aborted", none⟩))
        1).trace.take 2 = [.invoke 1, .sleep 1000] ∧
     2 ≤ invocations (retryWithBackoff 2 1000
        (fun _ => attemptOnce (β := Unit) 30000 (.thrown ⟨"AbortError", "aborted", none⟩))
        1).trace) :=
  ⟨by decide,
    timeout_classified_transient 30000 2 1000 "aborted" none
      (fun _ => attemptOnce (β := Unit) 30000 (.thrown ⟨"AbortError", "aborted", none⟩))
      (by decide) rfl⟩

/-- Outcome record produced for one batch item, as built by the
`batch.map` callback of `batchProcess`: the global index `i + index`
together with either the result or the caught error. -/
structure BatchOutcome (β ε : Type) where
  index : Nat
  result : Option β
  error : Option ε

/-- Outcome of `processor(item)` for the item at global index `idx`. -/
def processItem (processor : α → Except ε β) (idx : Nat) (item : α) : BatchOutcome β ε :=
  match processor item with
  | .ok r => ⟨idx, some r, none⟩
  | .error e => ⟨idx, none, some e⟩

/-- Translation of `batch.map((item, index) => ...)` for one window: the
callback records `i + index` with the window-local `index`; here `start`
is `i` advanced along the window, which yields the same global numbers. -/
def windowOutcomes (processor : α → Except ε β) (start : Nat) :
    List α → List (BatchOutcome β ε)
  | [] => []
  | x :: xs => processItem processor start x :: windowOutcomes processor (start + 1) xs

/-- Translation of the `forEach` body over the settled window: a failure
is pushed onto `errors`, a success is written at `results[index]`.  The
sparse `results` array is modelled as a map from index to an optional
value, `none` standing for a hole. -/
def applyOutcome (acc : (Nat → Option β) × List (Nat × ε)) (o : BatchOutcome β ε) :
    (Nat → Option β) × List (Nat × ε) :=
  match o.error with
  | some e => (acc.1, acc.2 ++ [(o.index, e)])
  | none => (fun j => if j = o.index then o.result else acc.1 j, acc.2)

/-- Loop of `batchProcess`: `items` is the unprocessed suffix and `i` the
global index of its head; each round slices a window of `concurrency`
items, settles all of them and folds the outcomes into the accumulators.
With `concurrency = 0` the source's `i += concurrency` never advances and
the loop diverges; the model returns the accumulators unchanged in that
case, which no claim relies on. -/
def batchRun (processor : α → Except ε β) (concurrency : Nat) (items : List α) (i : Nat)
    (results : Nat → Option β) (errors : List (Nat × ε)) :
    (Nat → Option β) × List (Nat × ε) :=
  match items with
  | [] => (results, errors)
  | x :: xs =>
    if hc : concurrency = 0 then (results, errors)
    else
      let acc := (windowOutcomes processor i ((x :: xs).take concurrency)).foldl applyOutcome
        (results, errors)
      batchRun processor concurrency ((x :: xs).drop concurrency) (i + concurrency) acc.1 acc.2
termination_by items.length
decreasing_by simp [List.length_drop]; omega

/-- Shallow embedding of `batchProcess(items, processor, concurrency = 5)`:
returns the sparse `results` array (a map from index to an optional
value) and the `errors` list of `{index, error}` records. -/
def batchProcess (items : List α) (processor : α → Except ε β) (concurrency : Nat := 5) :
    (Nat → Option β) × List (Nat × ε) :=
  batchRun processor concurrency items 0 (fun _ => none) []

/-- Error entries a left-to-right pass appends, with global indices
starting at `i`; characterises the `errors` accumulator of `batchRun`. -/
def errList (processor : α → Except ε β) : Nat → List α → List (Nat × ε)
  | _, [] => []
  | i, x :: xs =>
    match processor x with
    | .ok _ => errList processor (i + 1) xs
    | .error e => (i, e) :: errList processor (i + 1) xs

/-- Sparse-array writes a left-to-right pass performs, with global
indices starting at `i`; characterises the `results` accumulator of
`batchRun`. -/
def resUpd (processor : α → Except ε β) : Nat → (Nat → Option β) → List α → Nat → Option β
  | _, res, [] => res
  | i, res, x :: xs =>
    match processor x with
    | .ok v => resUpd processor (i + 1) (fun j => if j = i then some v else res j) xs
    | .error _ => resUpd processor (i + 1) res xs

theorem windowFold_eq (p : α → Except ε β) :
    ∀ (w : List α) (i : Nat) (res : Nat → Option β) (errs : List (Nat × ε)),
      (windowOutcomes p i w).foldl applyOutcome (res, errs) =
        (resUpd p i res w, errs ++ errList p i w) := by
  intro w
  induction w with
  | nil => intro i res errs; simp [windowOutcomes, resUpd, errList]
  | cons x xs ih =>
    intro i res errs
    cases hp : p x with
    | ok v =>
      simp only [windowOutcomes, processItem, hp, List.foldl_cons, applyOutcome]
      rw [ih]
      simp [resUpd, errList, hp]
    | error e =>
      simp only [windowOutcomes, processItem, hp, List.foldl_cons, applyOutcome]
      rw [ih]
      simp [resUpd, errList, hp]

theorem resUpd_append (p : α → Except ε β) :
    ∀ (as bs : List α) (i : Nat) (res : Nat → Option β),
      resUpd p i res (as ++ bs) = resUpd p (i + as.length) (resUpd p i res as) bs := by
  intro as
  induction as with
  | nil => intro bs i res; simp [resUpd]
  | cons x xs ih =>
    intro bs i res
    have hidx : i + (x :: xs).length = (i + 1) + xs.length := by
      simp only [List.length_cons]; omega
    rw [hidx]
    cases hp : p x with
    | ok v =>
      simp only [List.cons_append, resUpd, hp, List.append_eq]
      exact ih bs (i + 1) _
    | error e =>
      simp only [List.cons_append, resUpd, hp, List.append_eq]
      exact ih bs (i + 1) _

theorem errList_append (p : α → Except ε β) :
    ∀ (as bs : List α) (i : Nat),
      errList p i (as ++ bs) = errList p i as ++ errList p (i + as.length) bs := by
  intro as
  induction as with
  | nil => intro bs i; simp [errList]
  | cons x xs ih =>
    intro bs i
    have hidx : i + (x :: xs).length = (i + 1) + xs.length := by
      simp only [List.length_cons]; omega
    rw [hidx]
    cases hp : p x with
    | ok v =>
      simp only [List.cons_append, errList, hp, List.append_eq]
      exact ih bs (i + 1)
    | error e =>
      simp only [List.cons_append, errList, hp, List.append_eq]
      rw [ih bs (i + 1)]

theorem batchRun_eq (p : α → Except ε β) (c : Nat) (hc : 0 < c) :
    ∀ (items : List α) (i : Nat) (res : Nat → Option β) (errs : List (Nat × ε)),
      batchRun p c items i res errs = (resUpd p i res items, errs ++ errList p i items) := by
  have H : ∀ (n : Nat) (items : List α), items.length ≤ n →
      ∀ (i : Nat) (res : Nat → Option β) (errs : List (Nat × ε)),
        batchRun p c items i res errs = (resUpd p i res items, errs ++ errList p i items) := by
    intro n
    induction n with
    | zero =>
      intro items hlen i res errs
      have : items = [] := List.length_eq_zero.mp (by omega)
      subst this
      simp [batchRun, resUpd, errList]
    | succ n ih =>
      intro items hlen i res errs
      cases items with
      | nil => simp [batchRun, resUpd, errList]
      | cons x xs =>
        have hcne : ¬ c = 0 := by omega
        conv_lhs => unfold batchRun
        simp only [dif_neg hcne]
        rw [windowFold_eq]
        rw [ih ((x :: xs).drop c) (by simp [List.length_drop]; simp at hlen; omega)]
        rcases le_or_lt (x :: xs).length c with hcl | hcl
        · rw [List.take_of_length_le hcl, List.drop_eq_nil_of_le hcl]
          simp [resUpd, errList]
        · have hT : ((x :: xs).take c).length = c := by
            simp only [List.length_take, List.length_cons]
            simp only [List.length_cons] at hcl
            omega
          conv_rhs => rw [← List.take_append_drop c (x :: xs)]
          rw [resUpd_append, errList_append, hT, List.append_assoc]
  intro items
  exact H items.length items le_rfl

theorem resUpd_lt (p : α → Except ε β) :
    ∀ (items : List α) (i j : Nat) (res : Nat → Option β), j < i →
      resUpd p i res items j = res j := by
  intro items
  induction items with
  | nil => intro i j res _; simp [resUpd]
  | cons x xs ih =>
    intro i j res hj
    cases hp : p x with
    | ok v =>
      simp only [resUpd, hp]
      rw [ih (i + 1) j _ (by omega)]
      simp only [if_neg (by omega : ¬ j = i)]
    | error e =>
      simp only [resUpd, hp]
      exact ih (i + 1) j res (by omega)

theorem resUpd_get (p : α → Except ε β) :
    ∀ (items : List α) (k : Nat) (hk : k < items.length) (i : Nat) (res : Nat → Option β),
      resUpd p i res items (i + k) =
        match p (items.get ⟨k, hk⟩) with
        | .ok v => some v
        | .error _ => res (i + k) := by
  intro items
  induction items with
  | nil => intro k hk; simp at hk
  | cons x xs ih =>
    intro k hk i res
    cases k with
    | zero =>
      cases hp : p x with
      | ok v =>
        simp only [resUpd, hp, List.get]
        rw [resUpd_lt p xs (i + 1) (i + 0) _ (by omega)]
        simp
      | error e =>
        simp only [resUpd, hp, List.get]
        exact resUpd_lt p xs (i + 1) (i + 0) res (by omega)
    | succ k2 =>
      have hk2 : k2 < xs.length := by simp only [List.length_cons] at hk; omega
      have hik : i + (k2 + 1) = (i + 1) + k2 := by omega
      cases hp : p x with
      | ok v =>
        simp only [resUpd, hp, List.get_cons_succ]
        rw [hik, ih k2 hk2 (i + 1)]
        cases hp2 : p (xs.get ⟨k2, hk2⟩) with
        | ok v2 => simp
        | error e2 => simp only [if_neg (by omega : ¬ (i + 1) + k2 = i)]
      | error e =>
        simp only [resUpd, hp, List.get_cons_succ]
        rw [hik, ih k2 hk2 (i + 1)]

theorem errList_fst_ge (p : α → Except ε β) :
    ∀ (items : List α) (i : Nat) (q : Nat × ε), q ∈ errList p i items → i ≤ q.1 := by
  intro items
  induction items with
  | nil => intro i q hq; simp [errList] at hq
  | cons x xs ih =>
    intro i q hq
    cases hp : p x with
    | ok v =>
      rw [errList, hp] at hq
      exact le_trans (by omega) (ih (i + 1) q hq)
    | error e =>
      rw [errList, hp] at hq
      rcases List.mem_cons.mp hq with h | h
      · subst h; simp
      · exact le_trans (by omega) (ih (i + 1) q h)

theorem errList_filter (p : α → Except ε β) :
    ∀ (items : List α) (k : Nat) (hk : k < items.length) (i : Nat),
      (errList p i items).filter (fun q => decide (q.1 = i + k)) =
        match p (items.get ⟨k, hk⟩) with
        | .error e => [(i + k, e)]
        | .ok _ => [] := by
  intro items
  induction items with
  | nil => intro k hk; simp at hk
  | cons x xs ih =>
    intro k hk i
    have hnil : ∀ j, j < i + 1 →
        (errList p (i + 1) xs).filter (fun q => decide (q.1 = j)) = [] := by
      intro j hj
      refine List.filter_eq_nil_iff.mpr ?_
      intro q hq
      have := errList_fst_ge p xs (i + 1) q hq
      simp only [decide_eq_true_eq]
      omega
    cases k with
    | zero =>
      cases hp : p x with
      | ok v =>
        simp only [errList, hp, List.get]
        exact hnil (i + 0) (by omega)
      | error e =>
        simp only [errList, hp, List.get, List.filter_cons]
        rw [hnil (i + 0) (by omega)]
        simp
    | succ k2 =>
      have hk2 : k2 < xs.length := by simp only [List.length_cons] at hk; omega
      have hik : i + (k2 + 1) = (i + 1) + k2 := by omega
      cases hp : p x with
      | ok v =>
        simp only [errList, hp, List.get_cons_succ]
        rw [hik, ih k2 hk2 (i + 1)]
      | error e =>
        simp only [errList, hp, List.get_cons_succ, List.filter_cons]
        rw [hik, ih k2 hk2 (i + 1)]
        simp only [decide_eq_true_eq, if_neg (by omega : ¬ i = (i + 1) + k2)]

theorem batchProcess_eq (items : List α) (p : α → Except ε β) (c : Nat) (hc : 0 < c) :
    batchProcess items p c = (resUpd p 0 (fun _ => none) items, errList p 0 items) := by
  unfold batchProcess
  rw [batchRun_eq p c hc items 0 _ []]
  simp

/-- C3: every input index is recorded in exactly one of the two outputs,
keyed by its position in the full input sequence: when
`processor(items[k])` succeeds its result sits at `results[k]` and no
entry of `errors` carries index `k`; when it fails, `results[k]` is a
hole and `errors` carries exactly one entry for index `k`, namely
`{index: k, error}`. -/
theorem batch_index_alignment (items : List α) (p : α → Except ε β) (c k : Nat)
    (hc : 0 < c) (hk : k < items.length) :
    (∀ v, p (items.get ⟨k, hk⟩) = .ok v →
        (batchProcess items p c).1 k = some v ∧
        (batchProcess items p c).2.filter (fun q => decide (q.1 = k)) = []) ∧
    (∀ er, p (items.get ⟨k, hk⟩) = .error er →
        (batchProcess items p c).1 k = none ∧
        (batchProcess items p c).2.filter (fun q => decide (q.1 = k)) = [(k, er)]) := by
  have hB := batchProcess_eq items p c hc
  have h1 : (batchProcess items p c).1 = resUpd p 0 (fun _ => none) items := by rw [hB]
  have h2 : (batchProcess items p c).2 = errList p 0 items := by rw [hB]
  have hres := resUpd_get p items k hk 0 (fun _ => none)
  have herr := errList_filter p items k hk 0
  simp only [Nat.zero_add] at hres herr
  constructor
  · intro v hv
    rw [hv] at hres herr
    rw [h1, h2]
    exact ⟨hres, herr⟩
  · intro er he
    rw [he] at hres herr
    rw [h1, h2]
    exact ⟨hres, herr⟩

def exItems : List String := ["A", "B", "C"]

def exProc : String → Except String String :=
  fun s => if s = "B" then .error "failB" else .ok s

theorem batch_index_alignment_witness :
    (batchProcess exItems exProc 5).1 0 = some "A" ∧
    (batchProcess exItems exProc 5).1 1 = none ∧
    (batchProcess exItems exProc 5).1 2 = some "C" ∧
    (batchProcess exItems exProc 5).2.filter (fun q => decide (q.1 = 1)) = [(1, "failB")] ∧
    (batchProcess exItems exProc 5).2.filter (fun q => decide (q.1 = 0)) = [] :=
  ⟨((batch_index_alignment exItems exProc 5 0 (by decide) (by decide)).1 "A" rfl).1,
   ((batch_index_alignment exItems exProc 5 1 (by decide) (by decide)).2 "failB" rfl).1,
   ((batch_index_alignment exItems exProc 5 2 (by decide) (by decide)).1 "C" rfl).1,
   ((batch_index_alignment exItems exProc 5 1 (by decide) (by decide)).2 "failB" rfl).2,
   ((batch_index_alignment exItems exProc 5 0 (by decide) (by decide)).1 "A" rfl).2⟩

/-- Whether the item at position `j` of the input fails under the given
processor; positions outside the input never fail. -/
def failsAt (p : α → Except ε β) (items : List α) (j : Nat) : Bool :=
  match items.get? j with
  | some x =>
    match p x with
    | .ok _ => false
    | .error _ => true
  | none => false

theorem errList_map_fst (p : α → Except ε β) :
    ∀ (items : List α) (i : Nat),
      (errList p i items).map Prod.fst =
        ((List.range items.length).filter (fun j => failsAt p items j)).map (fun j => i + j) := by
  intro items
  induction items with
  | nil => intro i; simp [errList]
  | cons x xs ih =>
    intro i
    have hsh : ((List.range xs.length).map Nat.succ).filter (fun j => failsAt p (x :: xs) j) =
        ((List.range xs.length).filter (fun j => failsAt p xs j)).map Nat.succ := by
      rw [List.filter_map]
      congr 1
    have hmm : ∀ l : List Nat,
        (l.map Nat.succ).map (fun j => i + j) = l.map (fun j => (i + 1) + j) := by
      intro l
      rw [List.map_map]
      refine List.map_congr_left ?_
      intro j _
      simp only [Function.comp, Nat.succ_eq_add_one]
      omega
    cases hp : p x with
    | ok v =>
      have h0 : failsAt p (x :: xs) 0 = false := by simp [failsAt, hp]
      simp only [errList, hp]
      rw [ih (i + 1), List.length_cons, List.range_succ_eq_map, List.filter_cons, h0]
      simp only [Bool.false_eq_true, if_false]
      rw [hsh, hmm]
    | error e =>
      have h0 : failsAt p (x :: xs) 0 = true := by simp [failsAt, hp]
      simp only [errList, hp, List.map_cons]
      rw [ih (i + 1), List.length_cons, List.range_succ_eq_map, List.filter_cons, h0]
      simp only [if_true]
      rw [List.map_cons, hsh, hmm]
      simp

/-- C7: a batch run is total and failure-isolated: the value at
`results[k]` and the `errors` entries keyed by `k` are functions of
`processor(items[k])` alone, so replacing the processor by one that
agrees on `items[k]` — however it behaves on every other item, including
siblings in the same window — leaves them unchanged; moreover the run
returns the full error list: the recorded error indices are exactly the
failing input positions, in input order, never an exception out of the
run. -/
theorem batch_failure_isolated (items : List α) (p q : α → Except ε β) (c k : Nat)
    (hc : 0 < c) (hk : k < items.length)
    (hpq : p (items.get ⟨k, hk⟩) = q (items.get ⟨k, hk⟩)) :
    (batchProcess items p c).1 k = (batchProcess items q c).1 k ∧
    (batchProcess items p c).2.filter (fun x => decide (x.1 = k)) =
      (batchProcess items q c).2.filter (fun x => decide (x.1 = k)) ∧
    (batchProcess items p c).2.map Prod.fst =
      ((List.range items.length).filter (fun j => failsAt p items j)).map (fun j => 0 + j) := by
  have hBp := batchProcess_eq items p c hc
  have hBq := batchProcess_eq items q c hc
  have h1p : (batchProcess items p c).1 = resUpd p 0 (fun _ => none) items := by rw [hBp]
  have h2p : (batchProcess items p c).2 = errList p 0 items := by rw [hBp]
  have h1q : (batchProcess items q c).1 = resUpd q 0 (fun _ => none) items := by rw [hBq]
  have h2q : (batchProcess items q c).2 = errList q 0 items := by rw [hBq]
  have hresp := resUpd_get p items k hk 0 (fun _ => none)
  have hresq := resUpd_get q items k hk 0 (fun _ => none)
  have herrp := errList_filter p items k hk 0
  have herrq := errList_filter q items k hk 0
  simp only [Nat.zero_add] at hresp hresq herrp herrq
  rw [hpq] at hresp herrp
  refine ⟨?_, ?_, ?_⟩
  · rw [h1p, h1q, hresp, hresq]
  · rw [h2p, h2q, herrp, herrq]
  · rw [h2p, errList_map_fst p items 0]

/-- Window decomposition induced by the loop
`for (let i = 0; i < items.length; i += concurrency)` with
`items.slice(i, i + concurrency)`; the degenerate `concurrency = 0` case
again stands in for the divergent source loop, which no claim covers. -/
def windows (c : Nat) (items : List α) : List (List α) :=
  match items with
  | [] => []
  | x :: xs =>
    if hc : c = 0 then [] else (x :: xs).take c :: windows c ((x :: xs).drop c)
termination_by items.length
decreasing_by simp [List.length_drop]; omega

/-- Window-by-window processing: fold each window's settled outcomes
into the accumulators, then advance to the next window. -/
def runWindows (p : α → Except ε β) :
    Nat → ((Nat → Option β) × List (Nat × ε)) → List (List α) →
      ((Nat → Option β) × List (Nat × ε))
  | _, acc, [] => acc
  | i, acc, w :: ws =>
    runWindows p (i + w.length) ((windowOutcomes p i w).foldl applyOutcome acc) ws

theorem runWindows_eq (p : α → Except ε β) :
    ∀ (ws : List (List α)) (i : Nat) (res : Nat → Option β) (errs : List (Nat × ε)),
      runWindows p i (res, errs) ws =
        (resUpd p i res ws.flatten, errs ++ errList p i ws.flatten) := by
  intro ws
  induction ws with
  | nil => intro i res errs; simp [runWindows, resUpd, errList]
  | cons w ws ih =>
    intro i res errs
    simp only [runWindows]
    rw [windowFold_eq, ih]
    simp only [List.flatten_cons]
    rw [resUpd_append, errList_append, List.append_assoc]

theorem windows_flatten (c : Nat) (hc : 0 < c) :
    ∀ (items : List α), (windows c items).flatten = items := by
  have H : ∀ (n : Nat) (items : List α), items.length ≤ n →
      (windows c items).flatten = items := by
    intro n
    induction n with
    | zero =>
      intro items hlen
      have : items = [] := List.length_eq_zero.mp (by omega)
      subst this
      simp [windows]
    | succ n ih =>
      intro items hlen
      cases items with
      | nil => simp [windows]
      | cons x xs =>
        have hcne : ¬ c = 0 := by omega
        conv_lhs => unfold windows
        simp only [dif_neg hcne, List.flatten_cons]
        rw [ih ((x :: xs).drop c) (by simp [List.length_drop]; simp at hlen; omega)]
        exact List.take_append_drop c (x :: xs)
  intro items
  exact H items.length items le_rfl

theorem windows_length (c : Nat) (hc : 0 < c) :
    ∀ (items : List α), (windows c items).length = (items.length + (c - 1)) / c := by
  have H : ∀ (n : Nat) (items : List α), items.length ≤ n →
      (windows c items).length = (items.length + (c - 1)) / c := by
    intro n
    induction n with
    | zero =>
      intro items hlen
      have : items = [] := List.length_eq_zero.mp (by omega)
      subst this
      simp [windows]
      exact (Nat.div_eq_of_lt (by omega)).symm
    | succ n ih =>
      intro items hlen
      cases items with
      | nil =>
        simp [windows]
        exact (Nat.div_eq_of_lt (by omega)).symm
      | cons x xs =>
        have hcne : ¬ c = 0 := by omega
        conv_lhs => unfold windows
        simp only [dif_neg hcne, List.length_cons]
        rw [ih ((x :: xs).drop c) (by simp [List.length_drop]; simp at hlen; omega)]
        simp only [List.length_drop, List.length_cons]
        rcases le_or_lt (xs.length + 1) c with hcl | hcl
        · have h0 : xs.length + 1 - c = 0 := by omega
          have h1 : xs.length + 1 + (c - 1) = xs.length + c := by omega
          rw [h0, h1, Nat.add_div_right _ hc]
          have h2 : (c - 1) / c = 0 := Nat.div_eq_of_lt (by omega)
          have h3 : xs.length / c = 0 := Nat.div_eq_of_lt (by omega)
          simp [h2, h3]
        · have h1 : xs.length + 1 + (c - 1) = (xs.length + 1 - c + (c - 1)) + c := by omega
          rw [h1, Nat.add_div_right _ hc]
  intro items
  exact H items.length items le_rfl

theorem windows_get? (c : Nat) (hc : 0 < c) :
    ∀ (items : List α) (k : Nat), k < (windows c items).length →
      (windows c items).get? k = some ((items.drop (c * k)).take c) := by
  have H : ∀ (n : Nat) (items : List α), items.length ≤ n →
      ∀ (k : Nat), k < (windows c items).length →
        (windows c items).get? k = some ((items.drop (c * k)).take c) := by
    intro n
    induction n with
    | zero =>
      intro items hlen k hk
      have : items = [] := List.length_eq_zero.mp (by omega)
      subst this
      simp [windows] at hk
    | succ n ih =>
      intro items hlen k hk
      cases items with
      | nil => simp [windows] at hk
      | cons x xs =>
        have hcne : ¬ c = 0 := by omega
        rw [windows] at hk ⊢
        simp only [dif_neg hcne] at hk ⊢
        cases k with
        | zero => simp
        | succ k2 =>
          simp only [List.get?_cons_succ]
          simp only [List.length_cons] at hk
          rw [ih ((x :: xs).drop c) (by simp [List.length_drop]; simp at hlen; omega) k2
            (by omega)]
          rw [List.drop_drop]
          have : c + c * k2 = c * (k2 + 1) := by ring
          rw [this]
  intro items
  exact H items.length items le_rfl

theorem windows_sizes (c : Nat) (hc : 0 < c) :
    ∀ (items : List α) (w : List α), w ∈ windows c items → 0 < w.length ∧ w.length ≤ c := by
  have H : ∀ (n : Nat) (items : List α), items.length ≤ n →
      ∀ (w : List α), w ∈ windows c items → 0 < w.length ∧ w.length ≤ c := by
    intro n
    induction n with
    | zero =>
      intro items hlen w hw
      have : items = [] := List.length_eq_zero.mp (by omega)
      subst this
      simp [windows] at hw
    | succ n ih =>
      intro items hlen w hw
      cases items with
      | nil => simp [windows] at hw
      | cons x xs =>
        have hcne : ¬ c = 0 := by omega
        rw [windows] at hw
        simp only [dif_neg hcne] at hw
        rcases List.mem_cons.mp hw with h | h
        · subst h
          simp only [List.length_take, List.length_cons]
          constructor
          · simp [Nat.lt_min]
            omega
          · exact min_le_left _ _
        · exact ih ((x :: xs).drop c) (by simp [List.length_drop]; simp at hlen; omega) w h
  intro items
  exact H items.length items le_rfl

/-- Launch and settle events of batch items, indexed globally. -/
inductive BEv where
  | launch (i : Nat)
  | settle (i : Nat)
deriving DecidableEq

def BEv.isLaunch : BEv → Bool
  | .launch _ => true
  | _ => false

def BEv.isSettle : BEv → Bool
  | .settle _ => true
  | _ => false

/-- Event trace of one window of `len` items starting at global index
`start`: all launches first (the window's operations are started
together), then all settles (`Promise.all` resolves only after every one
of them settled). -/
def windowTrace (start len : Nat) : List BEv :=
  (List.range len).map (fun j => BEv.launch (start + j)) ++
    (List.range len).map (fun j => BEv.settle (start + j))

/-- Concatenated traces of a window list processed in order: window
`k + 1` launches nothing before window `k` has fully settled. -/
def schedTrace : Nat → List (List α) → List BEv
  | _, [] => []
  | i, w :: ws => windowTrace i w.length ++ schedTrace (i + w.length) ws

/-- Event trace of a full `batchProcess` run. -/
def batchTrace (c : Nat) (items : List α) : List BEv :=
  schedTrace 0 (windows c items)

/-- Operations in flight after a trace: launches minus settles. -/
def inFlight (t : List BEv) : Nat :=
  t.countP BEv.isLaunch - t.countP BEv.isSettle

theorem windowTrace_launch_count (s len : Nat) :
    (windowTrace s len).countP BEv.isLaunch = len := by
  simp [windowTrace, List.countP_append, List.countP_map, Function.comp_def,
    BEv.isLaunch]

theorem windowTrace_settle_count (s len : Nat) :
    (windowTrace s len).countP BEv.isSettle = len := by
  simp [windowTrace, List.countP_append, List.countP_map, Function.comp_def,
    BEv.isSettle]

theorem inFlight_windowTrace (s len n : Nat) :
    inFlight ((windowTrace s len).take n) ≤ len := by
  have h1 : ((windowTrace s len).take n).countP BEv.isLaunch ≤ len := by
    calc ((windowTrace s len).take n).countP BEv.isLaunch
        ≤ (windowTrace s len).countP BEv.isLaunch :=
          (List.take_sublist n _).countP_le _
      _ = len := windowTrace_launch_count s len
  simp only [inFlight]
  omega

theorem inFlight_schedTrace (c : Nat) :
    ∀ (ws : List (List α)), (∀ w ∈ ws, w.length ≤ c) →
      ∀ (i n : Nat), inFlight ((schedTrace i ws).take n) ≤ c := by
  intro ws
  induction ws with
  | nil => intro _ i n; simp [schedTrace, inFlight]
  | cons w ws ih =>
    intro h i n
    simp only [schedTrace]
    rw [List.take_append_eq_append_take]
    rcases le_or_lt n (windowTrace i w.length).length with hn | hn
    · have h0 : n - (windowTrace i w.length).length = 0 := by omega
      rw [h0, List.take_zero, List.append_nil]
      exact le_trans (inFlight_windowTrace i w.length n) (h w (List.mem_cons_self w ws))
    · have ha : (windowTrace i w.length).take n = windowTrace i w.length :=
        List.take_of_length_le (by omega)
      rw [ha]
      have hb := ih (fun w2 hw2 => h w2 (List.mem_cons_of_mem _ hw2)) (i + w.length)
        (n - (windowTrace i w.length).length)
      simp only [inFlight, List.countP_append, windowTrace_launch_count,
        windowTrace_settle_count] at hb ⊢
      omega

/-- C4: `batchProcess` splits the input into `⌈n / c⌉` consecutive,
non-overlapping windows — window `k` is `items.slice(c*k, c*k + c)`,
nonempty and of size at most `c` — and processes them strictly in
sequence: the run is the left fold of the window list, each window fully
settled before the next starts, so every prefix of the launch/settle
trace has at most `c` operations in flight; omitting `concurrency`
selects the default bound `5`. -/
theorem batch_window_schedule (items : List α) (p : α → Except ε β) (c : Nat) (hc : 0 < c) :
    (windows c items).flatten = items ∧
    (windows c items).length = (items.length + (c - 1)) / c ∧
    (∀ k, k < (windows c items).length →
        (windows c items).get? k = some ((items.drop (c * k)).take c)) ∧
    (∀ w ∈ windows c items, 0 < w.length ∧ w.length ≤ c) ∧
    batchProcess items p c = runWindows p 0 (fun _ => none, []) (windows c items) ∧
    (∀ n, inFlight ((batchTrace c items).take n) ≤ c) ∧
    batchProcess items p = batchProcess items p 5 := by
  refine ⟨windows_flatten c hc items, windows_length c hc items, windows_get? c hc items,
    windows_sizes c hc items, ?_, ?_, rfl⟩
  · rw [batchProcess_eq items p c hc, runWindows_eq, windows_flatten c hc items]
    simp
  · intro n
    simp only [batchTrace]
    exact inFlight_schedTrace c (windows c items)
      (fun w hw => (windows_sizes c hc items w hw).2) 0 n

theorem batch_window_schedule_witness :
    0 < 2 ∧
    (windows 2 [1, 2, 3, 4, 5]).flatten = [1, 2, 3, 4, 5] ∧
    (windows 2 [1, 2, 3, 4, 5]).length = (5 + (2 - 1)) / 2 ∧
    inFlight ((batchTrace 2 [1, 2, 3, 4, 5]).take 3) ≤ 2 :=
  ⟨by decide,
   (batch_window_schedule [1, 2, 3, 4, 5] (fun n => (Except.ok n : Except Unit Nat)) 2
     (by decide)).1,
   (batch_window_schedule [1, 2, 3, 4, 5] (fun n => (Except.ok n : Except Unit Nat)) 2
     (by decide)).2.1,
   (batch_window_schedule [1, 2, 3, 4, 5] (fun n => (Except.ok n : Except Unit Nat)) 2
     (by decide)).2.2.2.2.2.1 3⟩

def exProc2 : String → Except String String :=
  fun s => if s = "B" then .error "failB" else .error "boom"

theorem batch_failure_isolated_witness :
    (batchProcess exItems exProc 5).1 1 = (batchProcess exItems exProc2 5).1 1 ∧
    (batchProcess exItems exProc 5).2.filter (fun x => decide (x.1 = 1)) =
      (batchProcess exItems exProc2 5).2.filter (fun x => decide (x.1 = 1)) ∧
    (batchProcess exItems exProc 5).2.map Prod.fst =
      ((List.range exItems.length).filter (fun j => failsAt exProc exItems j)).map
        (fun j => 0 + j) :=
  batch_failure_isolated exItems exProc exProc2 5 1 (by decide) (by decide) rfl

/-- JS object of string-valued headers as an ordered association list. -/
abbrev Headers := List (String × String)

/-- JS object-spread write of one property: update in place when the key
is present, append otherwise. -/
def setKey (o : Headers) (k v : String) : Headers :=
  if (o.map Prod.fst).contains k then
    o.map (fun q => if q.1 = k then (k, v) else q)
  else o ++ [(k, v)]

/-- JS spread merge `{...a, ...b}`: entries of `b` override `a`. -/
def mergeObj (a b : Headers) : Headers :=
  b.foldl (fun acc q => setKey acc q.1 q.2) a

/-- Options object passed to `request`; a field holds `none` when the
property is absent from the object. -/
structure RequestOptions where
  method : Option String := none
  body : Option String := none
  headers : Option Headers := none

/-- Headers of the `config` object built by `request` from
`{timeout, headers: {'Content-Type': ..., ...defaultHeaders,
...options.headers}, ...options}`: the trailing `...options` spread
overwrites the merged `headers` property whenever `options` itself
carries a `headers` property. -/
def configHeaders (defaultHeaders : Headers) (options : RequestOptions) : Headers :=
  let merged := mergeObj (mergeObj [("Content-Type", "application/json")] defaultHeaders)
    (options.headers.getD [])
  match options.headers with
  | some h => h
  | none => merged

/-- Options object built by `get(endpoint, headers = {})`. -/
def getOptions (headers : Headers := []) : RequestOptions :=
  { method := some "GET", headers := some headers }

/-- Options object built by `post(endpoint, data, headers = {})`; `body`
holds the serialised `data`. -/
def postOptions (body : String) (headers : Headers := []) : RequestOptions :=
  { method := some "POST", body := some body, headers := some headers }

/-- Options object built by `put(endpoint, data, headers = {})`. -/
def putOptions (body : String) (headers : Headers := []) : RequestOptions :=
  { method := some "PUT", body := some body, headers := some headers }

/-- Options object built by `delete(endpoint, headers = {})`. -/
def deleteOptions (headers : Headers := []) : RequestOptions :=
  { method := some "DELETE", headers := some headers }

/-- C9: whenever `options` carries a `headers` property, the trailing
`...options` spread drops the previously merged defaults and the headers
sent are exactly `options.headers`; every convenience method passes a
`headers` property (defaulting to `{}`), so calls through `get`, `post`,
`put` and `delete` never include the constructor's `defaultHeaders` nor
the default `Content-Type`, whatever `defaultHeaders` holds. -/
theorem convenience_headers_dropped (d h : Headers) (body : String)
    (options : RequestOptions) (hh : options.headers = some h) :
    configHeaders d options = h ∧
    configHeaders d (getOptions h) = h ∧
    configHeaders d (postOptions body h) = h ∧
    configHeaders d (putOptions body h) = h ∧
    configHeaders d (deleteOptions h) = h ∧
    configHeaders d getOptions = [] := by
  refine ⟨?_, rfl, rfl, rfl, rfl, rfl⟩
  simp [configHeaders, hh]

theorem convenience_headers_dropped_witness :
    (({ method := some "GET", headers := some [("X-Api-Key", "k")] } : RequestOptions).headers
        = some [("X-Api-Key", "k")]) ∧
    (configHeaders [("Authorization", "token")]
        { method := some "GET", headers := some [("X-Api-Key", "k")] }
        = [("X-Api-Key", "k")] ∧
     configHeaders [("Authorization", "token")] (getOptions [("X-Api-Key", "k")])
        = [("X-Api-Key", "k")] ∧
     configHeaders [("Authorization", "token")] (postOptions "{}" [("X-Api-Key", "k")])
        = [("X-Api-Key", "k")] ∧
     configHeaders [("Authorization", "token")] (putOptions "{}" [("X-Api-Key", "k")])
        = [("X-Api-Key", "k")] ∧
     configHeaders [("Authorization", "token")] (deleteOptions [("X-Api-Key", "k")])
        = [("X-Api-Key", "k")] ∧
     configHeaders [("Authorization", "token")] getOptions = []) :=
  ⟨rfl, convenience_headers_dropped [("Authorization", "token")] [("X-Api-Key", "k")] "{}"
    { method := some "GET", headers := some [("X-Api-Key", "k")] } rfl⟩

end APIClient
